import Mathlib

/-!
Verification development for the Shim text editor (src/shim.c).

The C source is shallowly embedded: rows are lists of characters, the
per-row render string, the raw/render index mappers, the row store
operations, the syntax highlighter scan, and the incremental search
callback are translated function by function from src/shim.c.  Machine
integers that can go negative in the source (`at` indices, cursor and
scroll fields) are modelled as `Int`; values that are provably
non-negative array indices are modelled as `Nat`.
-/

namespace Shim

/-- Tab stop width, `SHIM_TAB_STOP` in shim.c. -/
def TAB_STOP : Nat := 8

/-- One iteration of the loop body of `editorRowCxtoRx` (shim.c:558-564):
`if(row->chars[j] == '\t') rx += (SHIM_TAB_STOP - 1) - (rx % SHIM_TAB_STOP); rx++;`. -/
def stepRx (rx : Nat) (c : Char) : Nat :=
  (if c = '\t' then rx + (TAB_STOP - 1) - rx % TAB_STOP else rx) + 1

/-- `editorRowCxtoRx` (shim.c:553-566): walk the characters to the left of
`cx`, advancing the render column by `stepRx` for each one. -/
def editorRowCxtoRx (chars : List Char) (cx : Nat) : Nat :=
  (chars.take cx).foldl stepRx 0

/-- Loop of `editorRowRxtoCx` (shim.c:571-579): walk raw characters
accumulating the render column the same way; return the first raw index
whose post-advance render column exceeds `rx`, or `size` if none does. -/
def rxToCxGo (rx : Nat) : List Char → Nat → Nat → Nat
  | [], _, cx => cx
  | c :: rest, curr, cx =>
    let curr' := stepRx curr c
    if rx < curr' then cx else rxToCxGo rx rest curr' (cx + 1)

/-- `editorRowRxtoCx` (shim.c:568-581). -/
def editorRowRxtoCx (chars : List Char) (rx : Nat) : Nat :=
  rxToCxGo rx chars 0 0

theorem lt_stepRx (rx : Nat) (c : Char) : rx < stepRx rx c := by
  unfold stepRx
  split
  · have : rx % TAB_STOP < TAB_STOP := Nat.mod_lt _ (by norm_num [TAB_STOP])
    omega
  · omega

theorem le_foldl_stepRx (l : List Char) (r : Nat) : r ≤ l.foldl stepRx r := by
  induction l generalizing r with
  | nil => simp
  | cons c rest ih =>
    calc r ≤ stepRx r c := (lt_stepRx r c).le
    _ ≤ rest.foldl stepRx (stepRx r c) := ih _

theorem rxToCxGo_spec (l : List Char) :
    ∀ (curr cx x : Nat), x ≤ l.length →
      rxToCxGo ((l.take x).foldl stepRx curr) l curr cx = cx + x := by
  induction l with
  | nil =>
    intro curr cx x hx
    have hx0 : x = 0 := Nat.le_zero.mp (by simpa using hx)
    subst hx0
    simp [rxToCxGo]
  | cons c rest ih =>
    intro curr cx x hx
    cases x with
    | zero =>
      simp only [List.take_zero, List.foldl_nil, rxToCxGo]
      rw [if_pos (lt_stepRx curr c)]
      omega
    | succ x' =>
      have hx' : x' ≤ rest.length := by simpa using hx
      simp only [List.take_succ_cons, List.foldl_cons, rxToCxGo]
      rw [if_neg (by exact Nat.not_lt.mpr (le_foldl_stepRx _ _)), ih _ (cx + 1) x' hx']
      omega

/-- C1: for every row and every valid raw offset `x ∈ [0, size]`,
`editorRowRxtoCx (editorRowCxtoRx x) = x`. -/
theorem cx_rx_roundtrip (chars : List Char) (x : Nat) (hx : x ≤ chars.length) :
    editorRowRxtoCx chars (editorRowCxtoRx chars x) = x := by
  unfold editorRowRxtoCx editorRowCxtoRx
  simpa using rxToCxGo_spec chars 0 0 x hx

/-- Witness for C1 at the concrete row `"\ta"` and offset `x = 2`. -/
theorem cx_rx_roundtrip_witness :
    2 ≤ ("\ta".toList).length ∧
      editorRowRxtoCx ("\ta".toList) (editorRowCxtoRx ("\ta".toList) 2) = 2 :=
  ⟨by decide, cx_rx_roundtrip ("\ta".toList) 2 (by decide)⟩

/-- Render-string construction of `editorUpdateRow` (shim.c:595-605): a tab
emits one space and then spaces until the column is a multiple of the tab
stop (that is, `TAB_STOP - idx % TAB_STOP` spaces in total); any other
character is copied. -/
def renderTabs : List Char → Nat → List Char
  | [], _ => []
  | c :: rest, idx =>
    if c = '\t' then
      let pad := TAB_STOP - idx % TAB_STOP
      List.replicate pad ' ' ++ renderTabs rest (idx + pad)
    else c :: renderTabs rest (idx + 1)

/-- Derived render string of a row, as computed by `editorUpdateRow`. -/
def editorUpdateRowRender (chars : List Char) : List Char :=
  renderTabs chars 0

/-- C6: the row `"\tfoo"` renders as eight spaces followed by `"foo"`, and
`editorRowCxtoRx` maps raw offset 1 of that row to render column 8. -/
theorem tab_render_scenario :
    editorUpdateRowRender ("\tfoo".toList) = List.replicate 8 ' ' ++ "foo".toList ∧
      editorRowCxtoRx ("\tfoo".toList) 1 = 8 := by
  constructor
  · decide
  · decide

/-- `editorRowsToString` (shim.c:742-758): concatenate all rows' raw
characters, appending one `'\n'` after each row. -/
def editorRowsToString (rows : List (List Char)) : List Char :=
  rows.foldr (fun r acc => r ++ '\n' :: acc) []

/-- Line splitting performed by the `getline` loop of `editorOpen`
(shim.c:776-782): each chunk extends up to and including a `'\n'`; a final
chunk without `'\n'` is produced only when non-empty.  The accumulator
holds the current chunk reversed. -/
def getlineSplitGo : List Char → List Char → List (List Char)
  | [], acc => if acc.isEmpty then [] else [acc.reverse]
  | c :: rest, acc =>
    if c = '\n' then (acc.reverse ++ ['\n']) :: getlineSplitGo rest []
    else getlineSplitGo rest (c :: acc)

/-- Trailing-terminator strip of `editorOpen` (shim.c:778-780):
`while(linelen > 0 && (line[linelen-1] == '\n' || line[linelen-1] == '\r')) linelen--;`. -/
def stripNLCR (l : List Char) : List Char :=
  (l.reverse.dropWhile (fun c => c = '\n' || c = '\r')).reverse

/-- Rows produced by `editorOpen` from a flat text: getline chunks with
trailing `'\n'`/`'\r'` stripped. -/
def editorOpenRows (text : List Char) : List (List Char) :=
  (getlineSplitGo text []).map stripNLCR

theorem getlineSplitGo_append (row : List Char) (hrow : '\n' ∉ row) :
    ∀ (acc t : List Char),
      getlineSplitGo (row ++ '\n' :: t) acc =
        (acc.reverse ++ row ++ ['\n']) :: getlineSplitGo t [] := by
  induction row with
  | nil => intro acc t; simp [getlineSplitGo]
  | cons c rest ih =>
    intro acc t
    have hc : c ≠ '\n' := by intro h; exact hrow (h ▸ List.mem_cons_self c rest)
    have hrest : '\n' ∉ rest := fun h => hrow (List.mem_cons_of_mem _ h)
    simp only [List.cons_append, getlineSplitGo, if_neg hc, List.append_eq]
    rw [ih hrest]
    simp

theorem stripNLCR_append_newline (row : List Char) (hrow : stripNLCR row = row) :
    stripNLCR (row ++ ['\n']) = row := by
  unfold stripNLCR at *
  simp only [List.reverse_append, List.reverse_cons, List.reverse_nil, List.nil_append,
    List.cons_append, List.dropWhile]
  simpa using hrow

/-- C4 (amended): flattening and re-splitting reproduces the rows for
every buffer whose rows contain no `'\n'` and carry no trailing
`'\n'`/`'\r'` run (`stripNLCR` fixes them). -/
theorem rows_flatten_roundtrip (rows : List (List Char))
    (h : ∀ r ∈ rows, ('\n' ∉ r) ∧ stripNLCR r = r) :
    editorOpenRows (editorRowsToString rows) = rows := by
  induction rows with
  | nil => simp [editorOpenRows, editorRowsToString, getlineSplitGo]
  | cons r rest ih =>
    have hr := h r (List.mem_cons_self r rest)
    have hrest : ∀ x ∈ rest, ('\n' ∉ x) ∧ stripNLCR x = x :=
      fun x hx => h x (List.mem_cons_of_mem _ hx)
    unfold editorOpenRows editorRowsToString
    simp only [List.foldr_cons]
    rw [getlineSplitGo_append r hr.1]
    simp only [List.map_cons, List.reverse_nil, List.nil_append]
    rw [stripNLCR_append_newline r hr.2]
    have := ih hrest
    unfold editorOpenRows editorRowsToString at this
    rw [this]

/-- Witness for C4's amended theorem at the buffer `["ab", ""]`. -/
theorem rows_flatten_roundtrip_witness :
    (∀ r ∈ ["ab".toList, ([] : List Char)], ('\n' ∉ r) ∧ stripNLCR r = r) ∧
      editorOpenRows (editorRowsToString ["ab".toList, []]) = ["ab".toList, []] :=
  ⟨by decide, rows_flatten_roundtrip _ (by decide)⟩

/-- Counterexample for C4 as stated: the (reachable) buffer whose single
row is `"\r"` flattens to `"\r\n"`, which re-splits to the single empty
row, not to `"\r"`. -/
theorem rows_flatten_roundtrip_counterexample :
    editorOpenRows (editorRowsToString [['\r']]) = [[]] ∧
      editorOpenRows (editorRowsToString [['\r']]) ≠ [['\r']] := by
  constructor
  · decide
  · decide

/-- Row of the row store (`E_ROW`, shim.c:77-85), restricted to the fields
the structural operations act on: the row's `idx` and its raw `chars`.
(`render`, `hl` and `hl_open_comment` are derived data recomputed by
`editorUpdateRow`/`editorUpdateSyntax`; they are modelled with the
highlighter below.) -/
structure ERow where
  idx : Nat
  chars : List Char
deriving DecidableEq, Repr

/-- Buffer state acted on by `editorInsertRow`/`editorDelRow`: the ordered
row sequence and the `dirty` counter. -/
structure EditorBuffer where
  rows : List ERow
  dirty : Nat
deriving DecidableEq, Repr

/-- `editorInsertRow` (shim.c:616-640): out-of-range `at` returns with no
change; otherwise the new row (leading spaces prepended to `s`) is placed
at position `at` with `idx = at`, every following row's `idx` is
incremented, and `dirty` is incremented. -/
def editorInsertRow (buf : EditorBuffer) (at_ : Int) (s : List Char)
    (leading_spaces : Nat) : EditorBuffer :=
  if at_ < 0 ∨ at_ > buf.rows.length then buf
  else
    let a := at_.toNat
    ⟨buf.rows.take a ++
        ⟨a, List.replicate leading_spaces ' ' ++ s⟩ ::
          (buf.rows.drop a).map (fun r => ⟨r.idx + 1, r.chars⟩),
      buf.dirty + 1⟩

/-- `editorDelRow` (shim.c:648-657): out-of-range `at` returns with no
change; otherwise the row at `at` is removed, every following row's `idx`
is decremented, and `dirty` is incremented. -/
def editorDelRow (buf : EditorBuffer) (at_ : Int) : EditorBuffer :=
  if at_ < 0 ∨ at_ ≥ buf.rows.length then buf
  else
    let a := at_.toNat
    ⟨buf.rows.take a ++ (buf.rows.drop (a + 1)).map (fun r => ⟨r.idx - 1, r.chars⟩),
      buf.dirty + 1⟩

/-- C5: inserting a row at a valid index `at` and then deleting the row at
`at` restores the prior row sequence exactly (contents and `idx` fields). -/
theorem insert_then_delete_roundtrip (buf : EditorBuffer) (at_ : Int)
    (s : List Char) (leading_spaces : Nat)
    (h0 : 0 ≤ at_) (h1 : at_ ≤ buf.rows.length) :
    (editorDelRow (editorInsertRow buf at_ s leading_spaces) at_).rows = buf.rows := by
  have ha : at_.toNat ≤ buf.rows.length := by omega
  have htake : (buf.rows.take at_.toNat).length = at_.toNat := by
    simp [Nat.min_eq_left ha]
  have hins : editorInsertRow buf at_ s leading_spaces =
      ⟨buf.rows.take at_.toNat ++
        ⟨at_.toNat, List.replicate leading_spaces ' ' ++ s⟩ ::
          (buf.rows.drop at_.toNat).map (fun r => ⟨r.idx + 1, r.chars⟩),
        buf.dirty + 1⟩ := by
    unfold editorInsertRow
    rw [if_neg (by omega)]
  rw [hins]
  unfold editorDelRow
  have hlen : ((buf.rows.take at_.toNat ++
      ⟨at_.toNat, List.replicate leading_spaces ' ' ++ s⟩ ::
        (buf.rows.drop at_.toNat).map (fun r => ⟨r.idx + 1, r.chars⟩)) : List ERow).length
      = buf.rows.length + 1 := by
    simp
    omega
  rw [if_neg (by simp only [hlen]; omega)]
  simp only
  rw [List.take_append_eq_append_take, List.drop_append_eq_append_drop, htake,
    Nat.sub_self, List.take_zero, List.append_nil, List.take_take, Nat.min_self]
  have hd : at_.toNat + 1 - at_.toNat = 1 := by omega
  rw [List.drop_eq_nil_of_le (by omega), hd]
  simp only [List.drop_one, List.tail_cons, List.nil_append, List.map_map]
  have hid : ((fun r : ERow => (⟨r.idx - 1, r.chars⟩ : ERow)) ∘
      fun r : ERow => (⟨r.idx + 1, r.chars⟩ : ERow)) = id := by
    funext r
    cases r
    simp
  rw [hid, List.map_id, List.take_append_drop]

theorem editorInsertRow_eq (buf : EditorBuffer) (at_ : Int) (s : List Char)
    (lsp : Nat) (h0 : 0 ≤ at_) (h1 : at_ ≤ buf.rows.length) :
    editorInsertRow buf at_ s lsp =
      ⟨buf.rows.take at_.toNat ++
        ⟨at_.toNat, List.replicate lsp ' ' ++ s⟩ ::
          (buf.rows.drop at_.toNat).map (fun r => ⟨r.idx + 1, r.chars⟩),
        buf.dirty + 1⟩ := by
  unfold editorInsertRow
  rw [if_neg (by omega)]

theorem editorDelRow_eq (buf : EditorBuffer) (at_ : Int)
    (h0 : 0 ≤ at_) (h1 : at_ < buf.rows.length) :
    editorDelRow buf at_ =
      ⟨buf.rows.take at_.toNat ++
        (buf.rows.drop (at_.toNat + 1)).map (fun r => ⟨r.idx - 1, r.chars⟩),
        buf.dirty + 1⟩ := by
  unfold editorDelRow
  rw [if_neg (by omega)]

/-- Row numbering invariant of C9: every row's `idx` field equals its
position in the buffer's row sequence. -/
def WellIndexed (b : EditorBuffer) : Prop :=
  ∀ (i : Nat) (h : i < b.rows.length), (b.rows.get ⟨i, h⟩).idx = i

theorem wellIndexed_insertRow (b : EditorBuffer) (hw : WellIndexed b)
    (at_ : Int) (s : List Char) (lsp : Nat) :
    WellIndexed (editorInsertRow b at_ s lsp) := by
  by_cases hr : at_ < 0 ∨ at_ > b.rows.length
  · unfold editorInsertRow
    rw [if_pos hr]
    exact hw
  · push_neg at hr
    rw [editorInsertRow_eq b at_ s lsp hr.1 hr.2]
    have ha : at_.toNat ≤ b.rows.length := by omega
    have htake : (b.rows.take at_.toNat).length = at_.toNat := by
      simp [Nat.min_eq_left ha]
    intro i hi
    simp only [List.get_eq_getElem]
    dsimp only at hi ⊢
    simp only [List.length_append, List.length_cons, List.length_map,
      List.length_take, List.length_drop] at hi
    by_cases hia : i < at_.toNat
    · rw [List.getElem_append_left (by omega), List.getElem_take]
      exact hw i (by omega)
    · push_neg at hia
      rw [List.getElem_append_right (by omega)]
      simp only [htake]
      rcases Nat.eq_or_lt_of_le hia with hieq | hilt
      · simp only [show i - at_.toNat = 0 by omega, List.getElem_cons_zero]
        omega
      · obtain ⟨k, hk⟩ : ∃ k, i - at_.toNat = k + 1 := ⟨i - at_.toNat - 1, by omega⟩
        simp only [hk, List.getElem_cons_succ, List.getElem_map, List.getElem_drop]
        dsimp only
        have := hw (at_.toNat + k) (by omega)
        simp only [List.get_eq_getElem] at this
        rw [this]
        omega

theorem wellIndexed_delRow (b : EditorBuffer) (hw : WellIndexed b)
    (at_ : Int) : WellIndexed (editorDelRow b at_) := by
  by_cases hr : at_ < 0 ∨ at_ ≥ b.rows.length
  · unfold editorDelRow
    rw [if_pos hr]
    exact hw
  · push_neg at hr
    rw [editorDelRow_eq b at_ hr.1 hr.2]
    have ha : at_.toNat < b.rows.length := by omega
    have htake : (b.rows.take at_.toNat).length = at_.toNat := by
      simp [Nat.min_eq_left ha.le]
    intro i hi
    simp only [List.get_eq_getElem]
    dsimp only at hi ⊢
    simp only [List.length_append, List.length_map, List.length_take,
      List.length_drop] at hi
    by_cases hia : i < at_.toNat
    · rw [List.getElem_append_left (by omega), List.getElem_take]
      exact hw i (by omega)
    · push_neg at hia
      rw [List.getElem_append_right (by omega)]
      simp only [htake]
      rw [List.getElem_map, List.getElem_drop]
      dsimp only
      have := hw (at_.toNat + 1 + (i - at_.toNat)) (by omega)
      simp only [List.get_eq_getElem] at this
      rw [this]
      omega

/-- Buffer states reachable from the empty buffer by the structural row
operations. -/
inductive Reachable : EditorBuffer → Prop
  | init : Reachable ⟨[], 0⟩
  | insert (b : EditorBuffer) (at_ : Int) (s : List Char) (lsp : Nat) :
      Reachable b → Reachable (editorInsertRow b at_ s lsp)
  | del (b : EditorBuffer) (at_ : Int) :
      Reachable b → Reachable (editorDelRow b at_)

/-- C9: in every buffer state reachable by `editorInsertRow` and
`editorDelRow`, each row's `idx` field equals its position. -/
theorem reachable_wellIndexed (b : EditorBuffer) (hb : Reachable b) :
    WellIndexed b := by
  induction hb with
  | init => intro i hi; simp at hi
  | insert b at_ s lsp _ ih => exact wellIndexed_insertRow b ih at_ s lsp
  | del b at_ _ ih => exact wellIndexed_delRow b ih at_

/-- Witness for C9: a concrete reachable buffer is well indexed. -/
theorem reachable_wellIndexed_witness :
    WellIndexed (editorDelRow (editorInsertRow ⟨[], 0⟩ 0 ("ab".toList) 0) 0) :=
  reachable_wellIndexed _ (Reachable.del _ 0 (Reachable.insert _ 0 _ 0 Reachable.init))

/-- C10: `editorInsertRow` with `at < 0 ∨ at > numrows` and `editorDelRow`
with `at < 0 ∨ at ≥ numrows` are silent no-ops: rows, row count, contents,
`idx` fields and the dirty flag are all unchanged. -/
theorem out_of_range_noop :
    (∀ (buf : EditorBuffer) (at_ : Int) (s : List Char) (lsp : Nat),
        at_ < 0 ∨ at_ > buf.rows.length → editorInsertRow buf at_ s lsp = buf) ∧
    (∀ (buf : EditorBuffer) (at_ : Int),
        at_ < 0 ∨ at_ ≥ buf.rows.length → editorDelRow buf at_ = buf) := by
  constructor
  · intro buf at_ s lsp h
    unfold editorInsertRow
    rw [if_pos h]
  · intro buf at_ h
    unfold editorDelRow
    rw [if_pos h]

/-- Witness for C10 at concrete out-of-range indices. -/
theorem out_of_range_noop_witness :
    editorInsertRow ⟨[], 0⟩ 1 [] 0 = ⟨[], 0⟩ ∧
      editorDelRow ⟨[], 0⟩ (-1) = ⟨[], 0⟩ :=
  ⟨out_of_range_noop.1 ⟨[], 0⟩ 1 [] 0 (Or.inr (by norm_num)),
    out_of_range_noop.2 ⟨[], 0⟩ (-1) (Or.inl (by norm_num))⟩

/-- Witness for C5 at a concrete buffer and index. -/
theorem insert_then_delete_roundtrip_witness :
    (editorDelRow (editorInsertRow ⟨[⟨0, "xy".toList⟩], 3⟩ 1 ("ab".toList) 2) 1).rows =
      [⟨0, "xy".toList⟩] :=
  insert_then_delete_roundtrip ⟨[⟨0, "xy".toList⟩], 3⟩ 1 ("ab".toList) 2
    (by norm_num) (by norm_num)

/-- Key codes of `enum editorKey` (shim.c:25-36) plus the ASCII codes the
prompt distinguishes (`'\r' = 13`, `'\x1b' = 27`, `CTRL_KEY('h') = 8`,
`BACKSPACE = 127`). -/
def ARROW_LEFT : Nat := 1000
def ARROW_RIGHT : Nat := 1001
def ARROW_UP : Nat := 1002
def ARROW_DOWN : Nat := 1003
def DEL_KEY : Nat := 1004

/-- Row data used by the search engine: raw `chars` and derived `render`.
(The `hl` overlay that `editorFindCallback` saves and restores colours
search results only; it does not affect cursor, scroll or match state and
is modelled with the highlighter, not here.) -/
structure FRow where
  chars : List Char
  render : List Char
deriving DecidableEq, Repr

instance : Inhabited FRow := ⟨⟨[], []⟩⟩

/-- Editor state read and written by `editorFind`, `editorFindCallback`
and `editorScroll`: the rows, cursor (`curr_x`, `curr_y`), derived
`render_x`, scroll offsets (`rowoff`, `coloff`) and the fixed screen
geometry. -/
structure FindEd where
  rows : List FRow
  curr_x : Int
  curr_y : Int
  render_x : Int
  rowoff : Int
  coloff : Int
  screenrows : Int
  screencols : Int
  row_num_offset : Int
deriving DecidableEq, Repr

/-- Search state held in `editorFindCallback`'s static variables
`last_match` and `direction` (shim.c:825-826).  Both statics are reset to
`-1`/`1` whenever a prompt session ends, so each `editorFind` call starts
from this state. -/
structure FindSt where
  last_match : Int
  direction : Int
deriving DecidableEq, Repr

/-- Offset of the first occurrence of `needle` in `hay` (C `strstr`);
`none` when absent, offset 0 for the empty needle. -/
def strstrOff (hay needle : List Char) : Option Nat :=
  (List.range (hay.length + 1)).find? (fun i => needle.isPrefixOf (hay.drop i))

/-- Search loop of `editorFindCallback` (shim.c:860-886): step
`current_row` by `direction`, wrapping `-1 ↦ numrows - 1` and
`numrows ↦ 0`, and return the first row whose render contains the query
together with the match offset.  The C `for` loop runs exactly `numrows`
iterations, passed here as the `fuel` argument. -/
def findLoop (rows : List FRow) (query : List Char) : Int → Int → Nat → Option (Nat × Nat)
  | _, _, 0 => none
  | cur, dir, fuel + 1 =>
    let cur1 := cur + dir
    let cur2 := if cur1 = -1 then (rows.length : Int) - 1
                else if cur1 = (rows.length : Int) then 0 else cur1
    match strstrOff (rows.getD cur2.toNat default).render query with
    | some off => some (cur2.toNat, off)
    | none => findLoop rows query cur2 dir fuel

/-- `editorFindCallback` (shim.c:823-887): Enter/Escape reset the search
state; arrow keys set the direction (right/down forward, left/up
backward); any other key restarts from `last_match = -1`; then the rows
are scanned from one past `last_match`, and on a hit the cursor moves to
the match (render offset converted back through `editorRowRxtoCx`) and
`rowoff` is forced to `numrows`. -/
def editorFindCallback (ed : FindEd) (st : FindSt) (query : List Char)
    (key : Nat) : FindEd × FindSt :=
  if key = 13 ∨ key = 27 then (ed, ⟨-1, 1⟩)
  else
    let st1 : FindSt :=
      if key = ARROW_RIGHT ∨ key = ARROW_DOWN then ⟨st.last_match, 1⟩
      else if key = ARROW_LEFT ∨ key = ARROW_UP then ⟨st.last_match, -1⟩
      else ⟨-1, 1⟩
    let dir : Int := if st1.last_match = -1 then 1 else st1.direction
    match findLoop ed.rows query st1.last_match dir ed.rows.length with
    | none => (ed, ⟨st1.last_match, dir⟩)
    | some (r, off) =>
        ({ ed with
            curr_y := (r : Int),
            curr_x := (editorRowRxtoCx (ed.rows.getD r default).chars off : Int),
            rowoff := (ed.rows.length : Int) },
          ⟨(r : Int), dir⟩)

theorem findLoop_finds_row0 (rows : List FRow) (query : List Char) (off : Nat)
    (hn : 0 < rows.length)
    (hmatch : strstrOff (rows.getD 0 default).render query = some off)
    (hnomatch : ∀ j, j < rows.length → 0 < j →
      strstrOff (rows.getD j default).render query = none) :
    ∀ (fuel : Nat) (cur : Int), -1 ≤ cur → cur < rows.length →
      (if cur = -1 then 1 else rows.length - cur.toNat) ≤ fuel →
      findLoop rows query cur 1 fuel = some (0, off) := by
  intro fuel
  induction fuel with
  | zero =>
    intro cur h0 h1 h2
    split at h2 <;> omega
  | succ fuel ih =>
    intro cur h0 h1 h2
    simp only [findLoop]
    rw [if_neg (by omega)]
    by_cases hwrap : cur + 1 = (rows.length : Int)
    · rw [if_pos hwrap]
      simp only [Int.toNat_zero]
      rw [hmatch]
    · rw [if_neg hwrap]
      by_cases hcur : cur = -1
      · subst hcur
        have h00 : ((-1 : Int) + 1).toNat = 0 := rfl
        rw [h00, hmatch]
      · rw [if_neg hcur] at h2
        have hj0 : 0 < (cur + 1).toNat := by omega
        have hj1 : (cur + 1).toNat < rows.length := by omega
        rw [hnomatch _ hj1 hj0]
        show findLoop rows query (cur + 1) 1 fuel = some (0, off)
        exact ih (cur + 1) (by omega) (by omega) (by rw [if_neg (by omega)]; omega)

/-- C7: when the query occurs only in row 0, a forward search step
(`ARROW_RIGHT`) started from any valid `last_match` — in particular from
the last row, where the cursor sits — wraps around and moves the cursor to
the match on row 0. -/
theorem search_wraps_to_row0 (ed : FindEd) (st : FindSt) (query : List Char)
    (off : Nat) (hn : 0 < ed.rows.length)
    (hlm0 : -1 ≤ st.last_match) (hlm1 : st.last_match < ed.rows.length)
    (hmatch : strstrOff (ed.rows.getD 0 default).render query = some off)
    (hnomatch : ∀ j, j < ed.rows.length → 0 < j →
      strstrOff (ed.rows.getD j default).render query = none) :
    (editorFindCallback ed st query ARROW_RIGHT).1.curr_y = 0 ∧
      (editorFindCallback ed st query ARROW_RIGHT).1.curr_x =
        (editorRowRxtoCx (ed.rows.getD 0 default).chars off : Int) ∧
      (editorFindCallback ed st query ARROW_RIGHT).2.last_match = 0 := by
  have hloop : findLoop ed.rows query st.last_match 1 ed.rows.length = some (0, off) := by
    apply findLoop_finds_row0 ed.rows query off hn hmatch hnomatch
    · exact hlm0
    · exact hlm1
    · split <;> omega
  have hkey : ¬((ARROW_RIGHT : Nat) = 13 ∨ (ARROW_RIGHT : Nat) = 27) := by decide
  unfold editorFindCallback
  rw [if_neg hkey, if_pos (Or.inl rfl)]
  simp only [ite_self]
  rw [hloop]
  exact ⟨rfl, rfl, rfl⟩

/-- Witness for C7: a two-row buffer whose query `"a"` occurs only in row
0; the forward step from `last_match = 1` (the last row) finds row 0. -/
theorem search_wraps_to_row0_witness :
    (editorFindCallback
        ⟨[⟨"ab".toList, "ab".toList⟩, ⟨"zz".toList, "zz".toList⟩], 0, 1, 0, 0, 0, 24, 80, 1⟩
        ⟨1, 1⟩ ("a".toList) ARROW_RIGHT).1.curr_y = 0 ∧
      (editorFindCallback
        ⟨[⟨"ab".toList, "ab".toList⟩, ⟨"zz".toList, "zz".toList⟩], 0, 1, 0, 0, 0, 24, 80, 1⟩
        ⟨1, 1⟩ ("a".toList) ARROW_RIGHT).1.curr_x =
        (editorRowRxtoCx ("ab".toList) 0 : Int) ∧
      (editorFindCallback
        ⟨[⟨"ab".toList, "ab".toList⟩, ⟨"zz".toList, "zz".toList⟩], 0, 1, 0, 0, 0, 24, 80, 1⟩
        ⟨1, 1⟩ ("a".toList) ARROW_RIGHT).2.last_match = 0 :=
  search_wraps_to_row0 _ _ _ 0 (by decide) (by decide) (by decide)
    (by decide) (by decide)

/-- Scroll clamping `editorScroll` (shim.c:1064-1087), run by
`editorRefreshScreen` on every prompt iteration: recompute `render_x`,
pull `rowoff`/`coloff` back when the cursor is above/left of the window,
push them forward when it is below/right of it. -/
def editorScrollF (ed : FindEd) : FindEd :=
  let render_x : Int :=
    if ed.curr_y < (ed.rows.length : Int) then
      (editorRowCxtoRx (ed.rows.getD ed.curr_y.toNat default).chars ed.curr_x.toNat : Int)
    else 0
  let rowoff1 := if ed.curr_y < ed.rowoff then ed.curr_y else ed.rowoff
  let rowoff2 := if ed.curr_y ≥ rowoff1 + ed.screenrows
                 then ed.curr_y - ed.screenrows + 1 else rowoff1
  let coloff1 := if render_x < ed.coloff then render_x else ed.coloff
  let coloff2 := if render_x ≥ coloff1 - ed.row_num_offset + ed.screencols - 1
                 then render_x - ed.screencols + ed.row_num_offset + 2 else coloff1
  { ed with render_x := render_x, rowoff := rowoff2, coloff := coloff2 }

/-- True iff the prompt treats key code `k` as a printable character
(`!iscntrl(c) && c < 128`, shim.c:937). -/
def printableKey (k : Nat) : Bool := 32 ≤ k && k ≠ 127 && k < 128

/-- Prompt loop of `editorPrompt` (shim.c:908-947) specialised to the find
callback, consuming a list of key codes: refresh (scroll) first, then
Backspace/Ctrl-H/Del shortens the query, Escape runs the callback and
returns `none` (cancel), Enter on a non-empty query runs the callback and
returns the query, printable keys extend the query; every key except the
two returning ones reaches the trailing callback call.  `none` overall
means the supplied keys were exhausted (the C loop would keep waiting). -/
def promptLoopFind (ed : FindEd) (st : FindSt) (buf : List Char) :
    List Nat → Option (Option (List Char) × FindEd)
  | [] => none
  | key :: keys =>
    let ed1 := editorScrollF ed
    if key = DEL_KEY ∨ key = 8 ∨ key = 127 then
      let buf1 := buf.dropLast
      let p := editorFindCallback ed1 st buf1 key
      promptLoopFind p.1 p.2 buf1 keys
    else if key = 27 then
      let p := editorFindCallback ed1 st buf 27
      some (none, p.1)
    else if key = 13 then
      if buf ≠ [] then
        let p := editorFindCallback ed1 st buf 13
        some (some buf, p.1)
      else
        let p := editorFindCallback ed1 st buf 13
        promptLoopFind p.1 p.2 buf keys
    else if printableKey key then
      let buf1 := buf ++ [Char.ofNat key]
      let p := editorFindCallback ed1 st buf1 key
      promptLoopFind p.1 p.2 buf1 keys
    else
      let p := editorFindCallback ed1 st buf key
      promptLoopFind p.1 p.2 buf keys

/-- `editorFind` (shim.c:889-906): save cursor and scroll state, run the
prompt; when the prompt returns `NULL` (cancelled with Escape) restore
`curr_x`, `curr_y`, `coloff` and `rowoff` from the saved values. -/
def editorFindRun (ed : FindEd) (keys : List Nat) : Option FindEd :=
  match promptLoopFind ed ⟨-1, 1⟩ [] keys with
  | none => none
  | some (some _q, ed1) => some ed1
  | some (none, ed1) =>
      some { ed1 with curr_x := ed.curr_x, curr_y := ed.curr_y,
                      coloff := ed.coloff, rowoff := ed.rowoff }

/-- C8: a cancelled search session leaves cursor and scroll state exactly
as they were before the search began: whatever cursor motion and
scrolling the interactive session performed (`edMid`), the result of
`editorFind` carries `ed`'s original `curr_x`, `curr_y`, `coloff`,
`rowoff` and the session's rows. -/
theorem find_cancel_restores (ed : FindEd) (keys : List Nat) (edMid : FindEd)
    (hcancel : promptLoopFind ed ⟨-1, 1⟩ [] keys = some (none, edMid)) :
    editorFindRun ed keys =
      some { edMid with curr_x := ed.curr_x, curr_y := ed.curr_y,
                        coloff := ed.coloff, rowoff := ed.rowoff } := by
  unfold editorFindRun
  rw [hcancel]

/-- Witness for C8: a concrete session (type `'a'`, then Escape) on a
scroll-stable editor state; the cancelled search returns the editor to its
exact prior state. -/
theorem find_cancel_restores_witness :
    promptLoopFind ⟨[⟨"zz".toList, "zz".toList⟩], 0, 0, 0, 0, 0, 24, 80, 1⟩
        ⟨-1, 1⟩ [] [97, 27] =
      some (none, ⟨[⟨"zz".toList, "zz".toList⟩], 0, 0, 0, 0, 0, 24, 80, 1⟩) ∧
      editorFindRun ⟨[⟨"zz".toList, "zz".toList⟩], 0, 0, 0, 0, 0, 24, 80, 1⟩ [97, 27] =
        some ⟨[⟨"zz".toList, "zz".toList⟩], 0, 0, 0, 0, 0, 24, 80, 1⟩ :=
  ⟨by decide,
    find_cancel_restores ⟨[⟨"zz".toList, "zz".toList⟩], 0, 0, 0, 0, 0, 24, 80, 1⟩
      [97, 27] ⟨[⟨"zz".toList, "zz".toList⟩], 0, 0, 0, 0, 0, 24, 80, 1⟩ (by decide)⟩

/-- Highlight classes, `enum editorHighlight` (shim.c:38-49): `normal`,
`comment`, `mlcomment`, `keyword1`, `keyword2`, `string`, `number`,
`matched` (HL_MATCH), `special`, `error`. -/
inductive HL where
  | normal
  | comment
  | mlcomment
  | keyword1
  | keyword2
  | string
  | number
  | matched
  | special
  | error
deriving DecidableEq, Repr

/-- Character at index `i` of a row's render text; out-of-range reads give
NUL, matching the C string's terminator (shim.c reads `render[i]` up to
one past `rsize`, where the `'\0'` terminator sits). -/
def charAt (render : List Char) (i : Nat) : Char :=
  render.getD i (Char.ofNat 0)

/-- C `strncmp(&render[i], pat, pat.length) == 0` for a NUL-free pattern:
true iff `pat` occurs at offset `i` of `render`. -/
def matchAt (render : List Char) (i : Nat) (pat : List Char) : Bool :=
  pat.isPrefixOf (render.drop i)

/-- C `isspace` over the standard space characters. -/
def isSpaceC (c : Char) : Bool :=
  c = ' ' || c = '\t' || c = '\n' || c = Char.ofNat 11 || c = Char.ofNat 12 || c = '\r'

/-- C `isdigit`. -/
def isDigitC (c : Char) : Bool := '0' ≤ c && c ≤ '9'

/-- Octal digit test of the number scanner (`c >= '0' && c <= '7'`). -/
def isOctC (c : Char) : Bool := '0' ≤ c && c ≤ '7'

/-- Hex digit test of the number scanner
(`isdigit(c) || (c >= 'A' && c <= 'F') || (c >= 'a' && c <= 'f')`). -/
def isHexC (c : Char) : Bool :=
  isDigitC c || ('A' ≤ c && c ≤ 'F') || ('a' ≤ c && c ≤ 'f')

/-- The fixed punctuation set of `is_separator` (shim.c:304-308): comma,
period, parentheses, plus, minus, slash, star, bang, question, equals,
tilde, percent, angle brackets, square brackets, braces (codes 123/125),
colon, semicolon, ampersand, pipe, caret, double quote (34), single quote
(39) and backslash (92). -/
def sepChars : List Char :=
  [',', '.', '(', ')', '+', '-', '/', '*', '!', '?', '=', '~', '%', '<', '>',
   '[', ']', Char.ofNat 123, Char.ofNat 125, ':', ';', '&', '|', '^',
   Char.ofNat 34, Char.ofNat 39, Char.ofNat 92]

/-- `is_separator` (shim.c:304-308): whitespace, NUL, or one of the fixed
punctuation characters. -/
def is_separator (c : Char) : Bool :=
  isSpaceC c || c = Char.ofNat 0 || sepChars.contains c

/-- Comment delimiters of the C syntax profile (HLDB, shim.c:122-132). -/
def scsStr : List Char := "//".toList
def mcsStr : List Char := "/*".toList
def mceStr : List Char := "*/".toList

/-- `C_HL_keywords` (shim.c:108-115); a trailing `'|'` marks keyword2. -/
def C_keywords : List (List Char) :=
  ["switch", "if", "do", "while", "for", "break", "continue", "return", "else",
   "goto", "struct", "union", "typedef", "enum", "class", "case", "default",
   "sizeof",
   "int|", "long|", "double|", "float|", "short|", "char|", "unsigned|",
   "signed|", "const|", "static|", "void|", "auto|", "bool|", "register|",
   "extern|", "volatile|", "size_t|", "ptrdiff_t|"].map String.toList

/-- `C_HL_specials` (shim.c:117-120). -/
def C_specials : List (List Char) :=
  ["include", "define", "undef", "if", "ifdef", "ifndef",
   "else", "elif", "endif", "pragma"].map String.toList

/-- C `memset(&hl[start], v, len)` on the highlight array, restricted to
the array's extent (the C code can write past the allocation in corner
cases, which is undefined behaviour there and a no-op here). -/
def memsetHL (v : HL) : Nat → Nat → List HL → List HL
  | _, _, [] => []
  | 0, 0, l => l
  | 0, len + 1, _ :: rest => v :: memsetHL v 0 len rest
  | start + 1, len, h :: rest => h :: memsetHL v start len rest

/-- State of the do-while number scanner (shim.c:416-458): position `i`,
the scanner's working character `c`, and the mutable flags of the loop. -/
structure NumSt where
  i : Nat
  c : Char
  prev_sep : Bool
  prev_hl : HL
  curr_hl : HL
  err_flag : Bool
  is_hexa : Bool
  is_octa : Bool
  count : Nat
deriving DecidableEq, Repr

/-- Body of the number do-while loop (shim.c:422-456), one iteration:
error consumption, octal/hex digits, plain digits, the decimal point
(whose `++count` side effect happens whenever the first three conjuncts
hold), leading-zero octal/hex detection, and the error arm
`curr_hl = count > 1 ? HL_NORMAL : HL_ERROR`. -/
def numBody (render : List Char) (s : NumSt) : NumSt :=
  if s.err_flag then { s with i := s.i + 1 }
  else if (s.is_octa && isOctC s.c) || (s.is_hexa && isHexC s.c) then
    { s with prev_hl := HL.number, curr_hl := HL.number, prev_sep := false,
             i := s.i + 1 }
  else if !s.is_octa && !s.is_hexa &&
      (isDigitC s.c && ((s.prev_sep && !(s.c = '0')) || s.prev_hl = HL.number)) then
    { s with prev_hl := HL.number, curr_hl := HL.number, prev_sep := false,
             i := s.i + 1 }
  else
    let count1 := if !s.is_octa && !s.is_hexa && s.c = '.' then s.count + 1 else s.count
    if !s.is_octa && !s.is_hexa && s.c = '.' && count1 = 1 &&
        (s.prev_hl = HL.number || s.prev_hl = HL.normal) then
      { s with count := count1, prev_hl := HL.number, curr_hl := HL.number,
               prev_sep := false, i := s.i + 1 }
    else if s.prev_sep && s.c = '0' then
      if !s.is_hexa && !s.is_octa && s.i + 1 < render.length then
        let c2 := charAt render (s.i + 1)
        if isDigitC c2 then
          { s with count := count1, c := c2, is_octa := true,
                   prev_hl := HL.number, curr_hl := HL.number, prev_sep := false,
                   i := s.i + 1 }
        else if c2 = 'x' || c2 = 'X' then
          { s with count := count1, c := c2, is_hexa := true,
                   prev_hl := HL.number, curr_hl := HL.number, prev_sep := false,
                   i := s.i + 2 }
        else
          { s with count := count1, c := c2,
                   prev_hl := HL.number, curr_hl := HL.number, prev_sep := false,
                   i := s.i + 1 }
      else
        { s with count := count1, prev_hl := HL.number, curr_hl := HL.number,
                 prev_sep := false, i := s.i + 1 }
    else
      { s with count := count1,
               curr_hl := if count1 > 1 then HL.normal else HL.error,
               err_flag := true, i := s.i + 1 }

theorem numBody_i_lt (render : List Char) (s : NumSt) :
    s.i < (numBody render s).i := by
  unfold numBody
  try dsimp only
  repeat' split
  all_goals try dsimp only
  all_goals omega

/-- The do-while number loop (shim.c:422-458): run the body, then continue
while `i < rsize && (!is_separator(c = render[i]) || c == '.')`; the
condition reassigns the working character `c`.  The first argument is
iteration fuel; since every body advances `i` and the loop only continues
while `i < rsize`, the caller's `rsize + 1 - i` bounds the iterations, so
the fuel case never cuts the loop short. -/
def numLoop : Nat → List Char → NumSt → NumSt
  | 0, _, s => s
  | fuel + 1, render, s =>
    if (numBody render s).i < render.length then
      if !is_separator (charAt render (numBody render s).i) ||
          charAt render (numBody render s).i = '.' then
        numLoop fuel render { numBody render s with c := charAt render (numBody render s).i }
      else { numBody render s with c := charAt render (numBody render s).i }
    else numBody render s

theorem numLoop_i_le (fuel : Nat) (render : List Char) (s : NumSt) :
    s.i ≤ (numLoop fuel render s).i := by
  induction fuel generalizing s with
  | zero => simp [numLoop]
  | succ fuel ih =>
    have hb := numBody_i_lt render s
    unfold numLoop
    split
    · split
      · have := ih { numBody render s with c := charAt render (numBody render s).i }
        dsimp only at this ⊢
        omega
      · dsimp only
        omega
    · omega

/-- Fold over the specials table (shim.c:376-387): on a match the `#`
cell (`idx`) and the token cells are classified Special, `i` advances by
`slen - 1`, `in_special` is set and `prev_sep` cleared; the `continue`
inside the C `for` only moves to the next table entry, so the fold keeps
scanning the rest of the table from the advanced position. -/
def specialsFold (render : List Char) (idx : Nat) :
    List (List Char) → Nat → List HL → Bool → Bool → Nat × List HL × Bool × Bool
  | [], i, hl, insp, psep => (i, hl, insp, psep)
  | sp :: rest, i, hl, insp, psep =>
    if matchAt render i sp && is_separator (charAt render (i + sp.length)) then
      specialsFold render idx rest (i + sp.length - 1)
        (memsetHL HL.special i sp.length (hl.set idx HL.special)) true false
    else specialsFold render idx rest i hl insp psep

/-- Fold over the keyword table (shim.c:469-479): keyword2 entries carry a
trailing `'|'`; on a match (keyword at `i` followed by a separator) the
cells are classified and `i` advances by `kwlen - 1`; the loop always runs
to the end of the table, so `keywords[j] != NULL` after it is never true
and the `prev_sep = 0; continue;` at shim.c:480-484 is dead code. -/
def kwFold (render : List Char) : List (List Char) → Nat → List HL → Nat × List HL
  | [], i, hl => (i, hl)
  | kw :: rest, i, hl =>
    let kw2 : Bool := kw.getLast? = some '|'
    let kwc := if kw2 then kw.dropLast else kw
    if matchAt render i kwc && is_separator (charAt render (i + kwc.length)) then
      kwFold render rest (i + kwc.length - 1)
        (memsetHL (if kw2 then HL.keyword2 else HL.keyword1) i kwc.length hl)
    else kwFold render rest i hl

/-- Scanner state of the `editorUpdateSyntax` while loop (shim.c:327-334):
position, `prev_sep`, `in_string` (the open quote character or none),
`in_comment`, `in_special`, and the highlight array built so far. -/
structure ScanSt where
  i : Nat
  prev_sep : Bool
  in_string : Option Char
  in_comment : Bool
  in_special : Bool
  hl : List HL
deriving DecidableEq, Repr

/-- Special-token section (shim.c:365-389).  When `in_special`, the inner
while marks non-space cells Special up to the next space or end of row;
the working character ends as `render[i']` if the loop stopped on a space,
or as the last marked character when it ran to the end of the row.  On a
`#` introducer the position skips the `#` and any whitespace (leaving the
working character at the first non-space cell) and the specials table is
scanned.  This section always falls through to the strings section. -/
def specialSec (render : List Char) (st : ScanSt) (c : Char) : ScanSt × Char :=
  if st.in_special then
    let n := ((render.drop st.i).takeWhile (fun ch => !isSpaceC ch)).length
    let i2 := st.i + n
    let c2 := if i2 < render.length then charAt render i2
              else charAt render (render.length - 1)
    ({ st with i := i2, hl := memsetHL HL.special st.i n st.hl }, c2)
  else if st.in_string.isNone && c = '#' then
    let idx := st.i
    let i1 := st.i + 1
    let nsp := ((render.drop i1).takeWhile isSpaceC).length
    let i2 := i1 + nsp
    let c2 := charAt render i2
    let f := specialsFold render idx C_specials i2 st.hl st.in_special st.prev_sep
    ({ st with i := f.1, hl := f.2.1, in_special := f.2.2.1, prev_sep := f.2.2.2 }, c2)
  else (st, c)

/-- String section (shim.c:391-409).  `Sum.inl` is a `continue` of the
outer while loop with the given next state; `Sum.inr` falls through to the
numbers section with the state unchanged. -/
def stringsSec (rsize : Nat) (st : ScanSt) (c : Char) : Sum ScanSt ScanSt :=
  match st.in_string with
  | some q =>
    let hl1 := st.hl.set st.i HL.string
    if c = Char.ofNat 92 && st.i + 2 < rsize then
      Sum.inl { st with i := st.i + 2, hl := hl1.set (st.i + 1) HL.string }
    else
      Sum.inl { st with i := st.i + 1, prev_sep := true,
                        in_string := if c = q then none else some q, hl := hl1 }
  | none =>
    if c = Char.ofNat 34 || c = Char.ofNat 39 then
      Sum.inl { st with i := st.i + 1, in_string := some c,
                        hl := st.hl.set st.i HL.string }
    else Sum.inr st

/-- Number section (shim.c:411-463): on `prev_sep` and a digit (or a
decimal point followed by a digit) run the do-while scanner, then memset
the whole run `[start, i)` to the scanner's final `curr_hl`; the working
character after the loop is `render[i]` (reassigned by the loop condition)
when `i < rsize`, else the scanner's last `c`.  Falls through. -/
def numbersSec (render : List Char) (st : ScanSt) (c : Char) : ScanSt × Char :=
  if st.prev_sep &&
      (isDigitC c ||
        (c = '.' && decide (st.i + 1 < render.length) && isDigitC (charAt render (st.i + 1)))) then
    let s0 : NumSt :=
      ⟨st.i, c, st.prev_sep,
        (if st.i > 0 then st.hl.getD (st.i - 1) HL.normal else HL.normal),
        HL.normal, false, false, false, 0⟩
    let se := numLoop (render.length + 1 - st.i) render s0
    let c2 := if se.i < render.length then charAt render se.i else se.c
    ({ st with i := se.i, prev_sep := se.prev_sep,
               hl := memsetHL se.curr_hl st.i (se.i - st.i) st.hl }, c2)
  else (st, c)

/-- Keyword section and loop bottom (shim.c:465-487): scan the keyword
table when `prev_sep`, then `prev_sep = is_separator(c); i++;`. -/
def bottomSec (render : List Char) (st : ScanSt) (c : Char) : ScanSt :=
  let kr := if st.prev_sep then kwFold render C_keywords st.i st.hl else (st.i, st.hl)
  { st with i := kr.1 + 1, hl := kr.2, prev_sep := is_separator c }

/-- The fall-through part of one while-loop iteration: special section,
then strings (which may `continue`), then numbers and the keyword/bottom
section. -/
def fallThrough (render : List Char) (st : ScanSt) (c : Char) : ScanSt :=
  let sc := specialSec render st c
  match stringsSec render.length sc.1 sc.2 with
  | Sum.inl nxt => nxt
  | Sum.inr st2 =>
    let nb := numbersSec render st2 sc.2
    bottomSec render nb.1 nb.2

theorem specialsFold_i_le (render : List Char) (idx : Nat)
    (sps : List (List Char)) (hs : ∀ sp ∈ sps, 1 ≤ sp.length) :
    ∀ i hl insp psep, i ≤ (specialsFold render idx sps i hl insp psep).1 := by
  induction sps with
  | nil => intro i hl insp psep; simp [specialsFold]
  | cons sp rest ih =>
    intro i hl insp psep
    have hsp := hs sp (List.mem_cons_self _ _)
    have hrest := fun k hk => hs k (List.mem_cons_of_mem _ hk)
    unfold specialsFold
    split
    · exact le_trans (by omega) (ih hrest _ _ _ _)
    · exact ih hrest _ _ _ _

theorem kwFold_i_le (render : List Char) (kws : List (List Char))
    (hk : ∀ kw ∈ kws, 2 ≤ kw.length) :
    ∀ i hl, i ≤ (kwFold render kws i hl).1 := by
  induction kws with
  | nil => intro i hl; simp [kwFold]
  | cons kw rest ih =>
    intro i hl
    have hkw := hk kw (List.mem_cons_self _ _)
    have hrest := fun k hkk => hk k (List.mem_cons_of_mem _ hkk)
    unfold kwFold
    dsimp only
    split <;> split <;>
      first
        | exact ih hrest _ _
        | (refine le_trans ?_ (ih hrest _ _)
           try simp only [List.length_dropLast]
           omega)

theorem specialSec_i_le (render : List Char) (st : ScanSt) (c : Char) :
    st.i ≤ (specialSec render st c).1.i := by
  unfold specialSec
  split
  · try dsimp only
    omega
  · split
    · try dsimp only
      have := specialsFold_i_le render st.i C_specials (by decide)
        (st.i + 1 + ((render.drop (st.i + 1)).takeWhile isSpaceC).length)
        st.hl st.in_special st.prev_sep
      omega
    · try dsimp only
      omega

theorem specialSec_in_comment (render : List Char) (st : ScanSt) (c : Char) :
    (specialSec render st c).1.in_comment = st.in_comment := by
  unfold specialSec
  split
  · rfl
  · split <;> rfl

theorem specialSec_in_string (render : List Char) (st : ScanSt) (c : Char) :
    (specialSec render st c).1.in_string = st.in_string := by
  unfold specialSec
  split
  · rfl
  · split <;> rfl

theorem stringsSec_inl_i_lt (rsize : Nat) (st : ScanSt) (c : Char) (st2 : ScanSt)
    (h : stringsSec rsize st c = Sum.inl st2) : st.i < st2.i := by
  unfold stringsSec at h
  split at h
  · split at h <;> (cases h; dsimp only; omega)
  · split at h
    · cases h
      dsimp only
      omega
    · cases h

theorem stringsSec_inl_in_comment (rsize : Nat) (st : ScanSt) (c : Char) (st2 : ScanSt)
    (h : stringsSec rsize st c = Sum.inl st2) : st2.in_comment = st.in_comment := by
  unfold stringsSec at h
  split at h
  · split at h <;> (cases h; rfl)
  · split at h
    · cases h
      rfl
    · cases h

theorem stringsSec_inr_eq (rsize : Nat) (st : ScanSt) (c : Char) (st2 : ScanSt)
    (h : stringsSec rsize st c = Sum.inr st2) : st2 = st := by
  unfold stringsSec at h
  split at h
  · split at h <;> cases h
  · split at h
    · cases h
    · cases h
      rfl

theorem numbersSec_i_le (render : List Char) (st : ScanSt) (c : Char) :
    st.i ≤ (numbersSec render st c).1.i := by
  unfold numbersSec
  split
  · dsimp only
    have := numLoop_i_le (render.length + 1 - st.i) render
      ⟨st.i, c, st.prev_sep,
        (if st.i > 0 then st.hl.getD (st.i - 1) HL.normal else HL.normal),
        HL.normal, false, false, false, 0⟩
    dsimp only at this
    omega
  · dsimp only
    omega

theorem numbersSec_in_comment (render : List Char) (st : ScanSt) (c : Char) :
    (numbersSec render st c).1.in_comment = st.in_comment := by
  unfold numbersSec
  split <;> rfl

theorem bottomSec_i_lt (render : List Char) (st : ScanSt) (c : Char) :
    st.i < (bottomSec render st c).i := by
  unfold bottomSec
  dsimp only
  split
  · have := kwFold_i_le render C_keywords (by decide) st.i st.hl
    omega
  · omega

theorem bottomSec_in_comment (render : List Char) (st : ScanSt) (c : Char) :
    (bottomSec render st c).in_comment = st.in_comment := by
  unfold bottomSec
  rfl

theorem fallThrough_i_lt (render : List Char) (st : ScanSt) (c : Char) :
    st.i < (fallThrough render st c).i := by
  unfold fallThrough
  have hsp := specialSec_i_le render st c
  dsimp only
  rcases hm : stringsSec render.length (specialSec render st c).1 (specialSec render st c).2
    with nxt | st2
  · have := stringsSec_inl_i_lt _ _ _ _ hm
    dsimp only
    omega
  · have he := stringsSec_inr_eq _ _ _ _ hm
    subst he
    have h1 := numbersSec_i_le render (specialSec render st c).1 (specialSec render st c).2
    have h2 := bottomSec_i_lt render
      (numbersSec render (specialSec render st c).1 (specialSec render st c).2).1
      (numbersSec render (specialSec render st c).1 (specialSec render st c).2).2
    dsimp only
    omega

theorem fallThrough_in_comment (render : List Char) (st : ScanSt) (c : Char) :
    (fallThrough render st c).in_comment = st.in_comment := by
  unfold fallThrough
  have hsp := specialSec_in_comment render st c
  dsimp only
  rcases hm : stringsSec render.length (specialSec render st c).1 (specialSec render st c).2
    with nxt | st2
  · have := stringsSec_inl_in_comment _ _ _ _ hm
    dsimp only
    rw [this, hsp]
  · have he := stringsSec_inr_eq _ _ _ _ hm
    subst he
    dsimp only
    rw [bottomSec_in_comment, numbersSec_in_comment, hsp]

/-- The while loop of `editorUpdateSyntax` (shim.c:333-488): single-line
comment start classifies the rest of the row and breaks; inside a
multi-line comment each cell is classified until the end marker; a
multi-line comment start enters the state; otherwise the iteration falls
through the special, string, number and keyword sections.  The first
argument is iteration fuel; every iteration strictly advances `i`
(`fallThrough_i_lt`) and the loop only runs while `i < rsize`, so the
caller's `rsize + 1` bounds the iterations and the fuel case never cuts
the loop short. -/
def scanLoop : Nat → List Char → ScanSt → ScanSt
  | 0, _, st => st
  | fuel + 1, render, st =>
    if st.i < render.length then
      if st.in_string.isNone && !st.in_comment && matchAt render st.i scsStr then
        { st with hl := memsetHL HL.comment st.i (render.length - st.i) st.hl }
      else if st.in_string.isNone && st.in_comment then
        if matchAt render st.i mceStr then
          scanLoop fuel render
            { st with i := st.i + 2, in_comment := false, prev_sep := true,
                      hl := memsetHL HL.mlcomment st.i 2 st.hl }
        else scanLoop fuel render { st with i := st.i + 1, hl := st.hl.set st.i HL.mlcomment }
      else if st.in_string.isNone && matchAt render st.i mcsStr then
        scanLoop fuel render
          { st with i := st.i + 2, in_comment := true,
                    hl := memsetHL HL.mlcomment st.i 2 st.hl }
      else scanLoop fuel render (fallThrough render st (charAt render st.i))
    else st

/-- `editorUpdateSyntax`'s per-row scan (shim.c:310-488 without the
cascade): given the row's render text and whether the previous row left a
block comment open, produce the highlight array and the row's final
`in_comment` state (which becomes `hl_open_comment`).  The scan starts
with `prev_sep = 1`, no string, no special, and the highlight array
initialised to `HL_NORMAL`. -/
def editorUpdateSyntaxRow (render : List Char) (startInComment : Bool) :
    List HL × Bool :=
  let stF := scanLoop (render.length + 1) render
    ⟨0, true, none, startInComment, false, List.replicate render.length HL.normal⟩
  (stF.hl, stF.in_comment)

/-- Counterexample for C3 as stated: on `"3.14.5"` the highlighter does
not produce Number for `"3.14"` and Error for `".5"`; the whole run is
classified by the single final `curr_hl`, which the second decimal point
sets to `HL_NORMAL` (`count > 1`, shim.c:453), so all six cells come out
Normal. -/
theorem numeric_run_counterexample :
    (editorUpdateSyntaxRow ("3.14.5".toList) false).1 ≠
        List.replicate 4 HL.number ++ List.replicate 2 HL.error ∧
      (editorUpdateSyntaxRow ("3.14.5".toList) false).1 =
        List.replicate 6 HL.normal := by
  constructor
  · decide
  · decide

/-- C3 (amended): the numeric run is classified with one final class for
the whole run; a run containing a second decimal point, such as
`"3.14.5"`, ends as Normal (the error arm downgrades to `HL_NORMAL` when
`count > 1`), while a malformed run without a second point, such as
`"12a"`, is classified Error. -/
theorem numeric_run_amended :
    (editorUpdateSyntaxRow ("3.14.5".toList) false).1 =
        List.replicate 6 HL.normal ∧
      (editorUpdateSyntaxRow ("12a".toList) false).1 =
        List.replicate 3 HL.error := by
  constructor
  · decide
  · decide

/-- Fields of `E_ROW` read and written by `editorUpdateSyntax`: the render
text (read), the highlight array (written) and `hl_open_comment`; the
row's `idx` is its position in the buffer's row list (the C9 invariant). -/
structure SRow where
  render : List Char
  hl : List HL
  hl_open_comment : Bool
deriving DecidableEq, Repr

instance : Inhabited SRow := ⟨⟨[], [], false⟩⟩

/-- Starting `in_comment` state of row `k`
(`row->idx > 0 && E.row[row->idx - 1].hl_open_comment`, shim.c:330). -/
def prevFlag (rows : List SRow) (k : Nat) : Bool :=
  match k with
  | 0 => false
  | j + 1 => (rows.getD j default).hl_open_comment

/-- `editorUpdateSyntax` at buffer level (shim.c:310-493): scan row `k`,
store its highlight array and exit state, and when the exit state changed
and a next row exists, recurse into row `k + 1`.  The first argument is
recursion fuel: each step moves to the next row, so `rows.length - k`
bounds the recursion exactly and the fuel case never cuts it short. -/
def updateSyntaxFrom : Nat → List SRow → Nat → List SRow
  | 0, rows, _ => rows
  | fuel + 1, rows, k =>
    if k < rows.length then
      let row := rows.getD k default
      let res := editorUpdateSyntaxRow row.render (prevFlag rows k)
      let changed := row.hl_open_comment ≠ res.2
      let rows1 := rows.set k ⟨row.render, res.1, res.2⟩
      if changed ∧ k + 1 < rows.length then updateSyntaxFrom fuel rows1 (k + 1)
      else rows1
    else rows

/-- `editorUpdateSyntax(&E.row[k])` with its cascade. -/
def editorUpdateSyntax (rows : List SRow) (k : Nat) : List SRow :=
  updateSyntaxFrom (rows.length - k) rows k

/-- The full re-highlight of `editorSelectSyntaxHighlight` (shim.c:533-535):
`editorUpdateSyntax` on every row from the top. -/
def fullHighlight (rows : List SRow) : List SRow :=
  (List.range rows.length).foldl (fun rs k => editorUpdateSyntax rs k) rows

/-- Row `j`'s stored exit state agrees with re-scanning its render text
from its stored starting state. -/
def consistentAt (rows : List SRow) (j : Nat) : Prop :=
  j < rows.length →
    (rows.getD j default).hl_open_comment =
      (editorUpdateSyntaxRow ((rows.getD j default).render) (prevFlag rows j)).2

/-- The block-comment state chained across rows: row `j`'s exit state when
every row is scanned in order from the top with inherited state. -/
def chainFlagAt (renders : List (List Char)) : Nat → Bool
  | 0 => (editorUpdateSyntaxRow (renders.getD 0 []) false).2
  | j + 1 => (editorUpdateSyntaxRow (renders.getD (j + 1) []) (chainFlagAt renders j)).2

/-- Substring occurrence test (bounded, hence decidable): `pat` occurs at
some offset of `l`. -/
def hasSub (l pat : List Char) : Bool :=
  (List.range (l.length + 1)).any (fun i => matchAt l i pat)

theorem getD_set_self (l : List SRow) (k : Nat) (a : SRow) (h : k < l.length) :
    (l.set k a).getD k default = a := by
  rw [List.getD_eq_getElem _ _ (by simpa using h), List.getElem_set]
  simp

theorem getD_set_ne (l : List SRow) (k j : Nat) (a : SRow) (h : k ≠ j) :
    (l.set k a).getD j default = l.getD j default := by
  rw [List.getD_eq_getElem?_getD, List.getD_eq_getElem?_getD, List.getElem?_set,
    if_neg h]

theorem getD_map_render (rows : List SRow) (j : Nat) (h : j < rows.length) :
    (rows.map SRow.render).getD j [] = (rows.getD j default).render := by
  rw [List.getD_eq_getElem _ _ (by simpa using h), List.getD_eq_getElem _ _ h,
    List.getElem_map]

theorem prevFlag_congr (rows rows' : List SRow) (j : Nat)
    (h : ∀ i, i < j → rows'.getD i default = rows.getD i default) :
    prevFlag rows' j = prevFlag rows j := by
  cases j with
  | zero => rfl
  | succ j' =>
    simp only [prevFlag]
    rw [h j' (by omega)]

theorem prevFlag_set_ne (rows : List SRow) (k : Nat) (a : SRow) (j : Nat)
    (h : j ≠ k + 1) : prevFlag (rows.set k a) j = prevFlag rows j := by
  cases j with
  | zero => rfl
  | succ j' =>
    simp only [prevFlag]
    rw [getD_set_ne _ _ _ _ (by omega)]

theorem consistentAt_congr (rows rows' : List SRow) (j : Nat)
    (hlen : rows'.length = rows.length)
    (hj : rows'.getD j default = rows.getD j default)
    (hprev : prevFlag rows' j = prevFlag rows j) :
    consistentAt rows j → consistentAt rows' j := by
  intro h hlt
  rw [hj, hprev]
  exact h (hlen ▸ hlt)

theorem consistentAt_set_self (rows : List SRow) (k : Nat) (hk : k < rows.length) :
    consistentAt (rows.set k
      ⟨(rows.getD k default).render,
        (editorUpdateSyntaxRow (rows.getD k default).render (prevFlag rows k)).1,
        (editorUpdateSyntaxRow (rows.getD k default).render (prevFlag rows k)).2⟩) k := by
  intro _
  rw [getD_set_self _ _ _ hk, prevFlag_set_ne rows k _ k (by omega)]

theorem updateSyntaxFrom_length (fuel : Nat) :
    ∀ (rows : List SRow) (k : Nat),
      (updateSyntaxFrom fuel rows k).length = rows.length := by
  induction fuel with
  | zero => intro rows k; rfl
  | succ fuel ih =>
    intro rows k
    unfold updateSyntaxFrom
    split
    · dsimp only
      split
      · rw [ih]
        simp
      · simp
    · rfl

theorem updateSyntaxFrom_render (fuel : Nat) :
    ∀ (rows : List SRow) (k j : Nat),
      ((updateSyntaxFrom fuel rows k).getD j default).render =
        (rows.getD j default).render := by
  induction fuel with
  | zero => intro rows k j; rfl
  | succ fuel ih =>
    intro rows k j
    unfold updateSyntaxFrom
    split
    next hk =>
      dsimp only
      have hset : ∀ j', (((rows.set k
          ⟨(rows.getD k default).render,
            (editorUpdateSyntaxRow (rows.getD k default).render (prevFlag rows k)).1,
            (editorUpdateSyntaxRow (rows.getD k default).render (prevFlag rows k)).2⟩).getD
              j' default).render) = ((rows.getD j' default).render) := by
        intro j'
        by_cases hkj : k = j'
        · subst hkj
          rw [getD_set_self _ _ _ hk]
        · rw [getD_set_ne _ _ _ _ hkj]
      split
      · rw [ih, hset]
      · rw [hset]
    · rfl

theorem updateSyntaxFrom_getD_lt (fuel : Nat) :
    ∀ (rows : List SRow) (k j : Nat), j < k →
      (updateSyntaxFrom fuel rows k).getD j default = rows.getD j default := by
  induction fuel with
  | zero => intro rows k j _; rfl
  | succ fuel ih =>
    intro rows k j hj
    unfold updateSyntaxFrom
    split
    next hk =>
      dsimp only
      split
      · rw [ih _ _ _ (by omega), getD_set_ne _ _ _ _ (by omega)]
      · rw [getD_set_ne _ _ _ _ (by omega)]
    · rfl

theorem updateSyntaxFrom_except (fuel : Nat) :
    ∀ (rows : List SRow) (k : Nat), fuel = rows.length - k →
      (∀ j, j ≠ k → consistentAt rows j) →
      ∀ j, consistentAt (updateSyntaxFrom fuel rows k) j := by
  induction fuel with
  | zero =>
    intro rows k hf hc j
    simp only [updateSyntaxFrom]
    by_cases hjk : j = k
    · subst hjk
      intro hlt
      omega
    · exact hc j hjk
  | succ fuel ih =>
    intro rows k hf hc j
    unfold updateSyntaxFrom
    have hk : k < rows.length := by omega
    rw [if_pos hk]
    dsimp only
    split
    next hcond =>
      apply ih _ (k + 1) (by simp; omega)
      intro j' hj'
      by_cases hj'k : j' = k
      · subst hj'k
        exact consistentAt_set_self rows j' hk
      · refine consistentAt_congr rows _ j' (by simp) (getD_set_ne _ _ _ _ (by omega))
          (prevFlag_set_ne _ _ _ _ (by omega)) (hc j' hj'k)
    next hcond =>
      by_cases hjk : j = k
      · subst hjk
        exact consistentAt_set_self rows j hk
      · by_cases hjk1 : j = k + 1
        · subst hjk1
          by_cases hlt : k + 1 < rows.length
          · have hnc : (rows.getD k default).hl_open_comment =
                (editorUpdateSyntaxRow (rows.getD k default).render (prevFlag rows k)).2 := by
              by_contra hne
              exact hcond ⟨hne, hlt⟩
            refine consistentAt_congr rows _ (k + 1) (by simp)
              (getD_set_ne _ _ _ _ (by omega)) ?_ (hc (k + 1) hjk)
            show ((rows.set k _).getD k default).hl_open_comment =
              (rows.getD k default).hl_open_comment
            rw [getD_set_self _ _ _ hk]
            exact hnc.symm
          · intro hlen
            simp only [List.length_set] at hlen
            omega
        · refine consistentAt_congr rows _ j (by simp) (getD_set_ne _ _ _ _ (by omega))
            (prevFlag_set_ne _ _ _ _ (by omega)) (hc j hjk)

/-- After `editorUpdateSyntax` on row `k` of a buffer that was consistent
everywhere except possibly at `k` (the situation after editing row `k`),
the whole buffer is consistent again: the cascade re-ran every dependent
row. -/
theorem editorUpdateSyntax_except (rows : List SRow) (k : Nat)
    (hc : ∀ j, j ≠ k → consistentAt rows j) :
    ∀ j, consistentAt (editorUpdateSyntax rows k) j :=
  updateSyntaxFrom_except (rows.length - k) rows k rfl hc

theorem updateSyntaxFrom_estab (fuel : Nat) :
    ∀ (rows : List SRow) (k : Nat), fuel = rows.length - k → k < rows.length →
      consistentAt (updateSyntaxFrom fuel rows k) k := by
  induction fuel with
  | zero => intro rows k hf hk; omega
  | succ fuel ih =>
    intro rows k hf hk
    unfold updateSyntaxFrom
    rw [if_pos hk]
    dsimp only
    split
    · refine consistentAt_congr _ _ k (by rw [updateSyntaxFrom_length])
        (updateSyntaxFrom_getD_lt _ _ _ _ (by omega))
        (prevFlag_congr _ _ _ (fun i hi => updateSyntaxFrom_getD_lt _ _ _ _ (by omega)))
        (consistentAt_set_self rows k hk)
    · exact consistentAt_set_self rows k hk

theorem editorUpdateSyntax_length (rows : List SRow) (k : Nat) :
    (editorUpdateSyntax rows k).length = rows.length :=
  updateSyntaxFrom_length _ _ _

theorem editorUpdateSyntax_render (rows : List SRow) (k j : Nat) :
    ((editorUpdateSyntax rows k).getD j default).render = (rows.getD j default).render :=
  updateSyntaxFrom_render _ _ _ _

theorem editorUpdateSyntax_getD_lt (rows : List SRow) (k j : Nat) (h : j < k) :
    (editorUpdateSyntax rows k).getD j default = rows.getD j default :=
  updateSyntaxFrom_getD_lt _ _ _ _ h

theorem editorUpdateSyntax_estab (rows : List SRow) (k : Nat) (hk : k < rows.length) :
    consistentAt (editorUpdateSyntax rows k) k :=
  updateSyntaxFrom_estab _ _ _ rfl hk

theorem consistent_chainFlag (rows : List SRow)
    (hc : ∀ j, consistentAt rows j) :
    ∀ j, j < rows.length →
      (rows.getD j default).hl_open_comment = chainFlagAt (rows.map SRow.render) j := by
  intro j
  induction j with
  | zero =>
    intro hj
    rw [hc 0 hj]
    simp only [chainFlagAt]
    rw [getD_map_render _ _ hj]
    rfl
  | succ j' ih =>
    intro hj
    have hj' : j' < rows.length := by omega
    rw [hc (j' + 1) hj]
    simp only [chainFlagAt]
    rw [getD_map_render _ _ hj]
    have hpf : prevFlag rows (j' + 1) = chainFlagAt (rows.map SRow.render) j' := ih hj'
    rw [hpf]

theorem foldl_updateSyntax_inv (rows : List SRow) (m : Nat) :
    ((List.range m).foldl (fun rs k => editorUpdateSyntax rs k) rows).length = rows.length ∧
      (∀ j, (((List.range m).foldl (fun rs k => editorUpdateSyntax rs k) rows).getD
          j default).render = (rows.getD j default).render) ∧
      (∀ j, j < m →
        consistentAt ((List.range m).foldl (fun rs k => editorUpdateSyntax rs k) rows) j) := by
  induction m with
  | zero =>
    refine ⟨rfl, fun j => rfl, ?_⟩
    intro j hj
    omega
  | succ m ih =>
    rw [List.range_succ, List.foldl_append]
    simp only [List.foldl_cons, List.foldl_nil]
    obtain ⟨ihlen, ihr, ihc⟩ := ih
    refine ⟨?_, ?_, ?_⟩
    · rw [editorUpdateSyntax_length, ihlen]
    · intro j
      rw [editorUpdateSyntax_render, ihr]
    · intro j hj
      rcases Nat.lt_succ_iff_lt_or_eq.mp hj with hj' | hj'
      · exact consistentAt_congr _ _ j
          (editorUpdateSyntax_length _ _)
          (editorUpdateSyntax_getD_lt _ _ _ hj')
          (prevFlag_congr _ _ _ (fun i hi =>
            editorUpdateSyntax_getD_lt _ _ _ (by omega)))
          (ihc j hj')
      · subst hj'
        by_cases hm : j < ((List.range j).foldl (fun rs k => editorUpdateSyntax rs k) rows).length
        · exact editorUpdateSyntax_estab _ _ hm
        · intro hlt
          rw [editorUpdateSyntax_length] at hlt
          omega

theorem fullHighlight_consistent (rows : List SRow) :
    ∀ j, consistentAt (fullHighlight rows) j := by
  intro j
  by_cases hj : j < rows.length
  · exact (foldl_updateSyntax_inv rows rows.length).2.2 j hj
  · intro hlt
    unfold fullHighlight at hlt
    rw [(foldl_updateSyntax_inv rows rows.length).1] at hlt
    omega

theorem map_render_eq_of_getD (rs rows : List SRow) (hlen : rs.length = rows.length)
    (h : ∀ j, (rs.getD j default).render = (rows.getD j default).render) :
    rs.map SRow.render = rows.map SRow.render := by
  apply List.ext_getElem (by simp [hlen])
  intro n h1 h2
  simp only [List.getElem_map]
  have hn := h n
  rw [List.getD_eq_getElem _ _ (by simpa using h1),
    List.getD_eq_getElem _ _ (by simpa using h2)] at hn
  exact hn

theorem fullHighlight_map_render (rows : List SRow) :
    (fullHighlight rows).map SRow.render = rows.map SRow.render :=
  map_render_eq_of_getD _ _ (foldl_updateSyntax_inv rows rows.length).1
    (foldl_updateSyntax_inv rows rows.length).2.1

theorem editorUpdateSyntax_map_render (rows : List SRow) (k : Nat) :
    (editorUpdateSyntax rows k).map SRow.render = rows.map SRow.render :=
  map_render_eq_of_getD _ _ (updateSyntaxFrom_length _ _ _)
    (fun j => updateSyntaxFrom_render _ _ _ j)

theorem matchAt_bound (l pat : List Char) (i : Nat) (hp : pat ≠ [])
    (h : matchAt l i pat = true) : i + pat.length ≤ l.length := by
  unfold matchAt at h
  have hle := (List.isPrefixOf_iff_prefix.mp h).length_le
  rw [List.length_drop] at hle
  have hp' : 0 < pat.length := List.length_pos.mpr hp
  omega

theorem hasSub_false (l pat : List Char) (hp : pat ≠ [])
    (h : hasSub l pat = false) : ∀ i, matchAt l i pat = false := by
  intro i
  by_contra hne
  have hm : matchAt l i pat = true := by
    cases hma : matchAt l i pat
    · exact absurd hma hne
    · rfl
  have hb := matchAt_bound l pat i hp hm
  have hp' : 0 < pat.length := List.length_pos.mpr hp
  unfold hasSub at h
  rw [List.any_eq_false] at h
  exact absurd hm (by simpa using h i (List.mem_range.mpr (by omega)))

theorem hasSub_true (l pat : List Char) (h : hasSub l pat = true) :
    ∃ i, matchAt l i pat = true := by
  unfold hasSub at h
  obtain ⟨i, _, hp⟩ := List.any_eq_true.mp h
  exact ⟨i, hp⟩

theorem scanLoop_stays_in_comment (render : List Char) :
    ∀ (fuel : Nat) (st : ScanSt), st.in_comment = true → st.in_string = none →
      (∀ i, matchAt render i mceStr = false) →
      (scanLoop fuel render st).in_comment = true := by
  intro fuel
  induction fuel with
  | zero =>
    intro st h1 _ _
    simpa [scanLoop] using h1
  | succ fuel ih =>
    intro st h1 h2 h3
    unfold scanLoop
    split
    · rw [if_neg (by simp [h1]), if_pos (by simp [h1, h2]), if_neg (by simp [h3 st.i])]
      exact ih _ h1 h2 h3
    · exact h1

theorem scanLoop_no_mcs (render : List Char) :
    ∀ (fuel : Nat) (st : ScanSt), st.in_comment = false →
      (∀ i, matchAt render i mcsStr = false) →
      (scanLoop fuel render st).in_comment = false := by
  intro fuel
  induction fuel with
  | zero =>
    intro st h1 _
    simpa [scanLoop] using h1
  | succ fuel ih =>
    intro st h1 h3
    unfold scanLoop
    split
    · split
      · exact h1
      · rw [if_neg (by simp [h1]), if_neg (by simp [h3 st.i])]
        exact ih _ (by rw [fallThrough_in_comment]; exact h1) h3
    · exact h1

theorem scanLoop_closes (render : List Char) :
    ∀ (fuel : Nat) (st : ScanSt), st.in_comment = true → st.in_string = none →
      (∃ i, st.i ≤ i ∧ matchAt render i mceStr = true) →
      (∀ i, matchAt render i mcsStr = false) →
      render.length < st.i + fuel →
      (scanLoop fuel render st).in_comment = false := by
  intro fuel
  induction fuel with
  | zero =>
    intro st _ _ hex _ hfu
    obtain ⟨i0, hi0, hm⟩ := hex
    have hb := matchAt_bound render mceStr i0 (by decide) hm
    have h2 : mceStr.length = 2 := rfl
    omega
  | succ fuel ih =>
    intro st h1 h2 hex hmcs hfu
    obtain ⟨i0, hi0, hm⟩ := hex
    have hb := matchAt_bound render mceStr i0 (by decide) hm
    have hl2 : mceStr.length = 2 := rfl
    unfold scanLoop
    rw [if_pos (by omega), if_neg (by simp [h1]), if_pos (by simp [h1, h2])]
    by_cases hme : matchAt render st.i mceStr = true
    · rw [if_pos hme]
      exact scanLoop_no_mcs render fuel _ rfl hmcs
    · rw [if_neg hme]
      have hne : i0 ≠ st.i := fun he => hme (he ▸ hm)
      refine ih _ h1 h2 ⟨i0, by dsimp only; omega, hm⟩ hmcs (by dsimp only; omega)

theorem scan_row_stays (render : List Char) (h : hasSub render mceStr = false) :
    (editorUpdateSyntaxRow render true).2 = true := by
  unfold editorUpdateSyntaxRow
  exact scanLoop_stays_in_comment render _ _ rfl rfl
    (hasSub_false render mceStr (by decide) h)

theorem scan_row_closes (render : List Char) (hmce : hasSub render mceStr = true)
    (hmcs : hasSub render mcsStr = false) :
    (editorUpdateSyntaxRow render true).2 = false := by
  unfold editorUpdateSyntaxRow
  obtain ⟨i0, hm⟩ := hasSub_true render mceStr hmce
  exact scanLoop_closes render _ _ rfl rfl ⟨i0, by dsimp only; omega, hm⟩
    (hasSub_false render mcsStr (by decide) hmcs) (by dsimp only; omega)

theorem chain_run_true (renders : List (List Char)) (r e : Nat)
    (hr : chainFlagAt renders r = true)
    (hmid : ∀ j, r < j → j < e → hasSub (renders.getD j []) mceStr = false) :
    ∀ j, r ≤ j → j < e → chainFlagAt renders j = true := by
  intro j
  induction j with
  | zero =>
    intro h0 _
    have hr0 : r = 0 := by omega
    exact hr0 ▸ hr
  | succ j' ih =>
    intro hle hlt
    rcases Nat.eq_or_lt_of_le hle with he | hlt'
    · exact he ▸ hr
    · have hj' : chainFlagAt renders j' = true := ih (by omega) (by omega)
      show (editorUpdateSyntaxRow (renders.getD (j' + 1) []) (chainFlagAt renders j')).2 = true
      rw [hj']
      exact scan_row_stays _ (hmid (j' + 1) (by omega) hlt)

theorem fullHighlight_length (rows : List SRow) :
    (fullHighlight rows).length = rows.length :=
  (foldl_updateSyntax_inv rows rows.length).1

/-- Counterexample for C2 as stated: in the buffer `["/*", "*/"]` the
second row contains the block-comment end marker, yet after a full
highlight its `hl_open_comment` is `false`, not `true` — the flag is true
only up to and excluding the row that closes the comment. -/
theorem block_comment_flag_counterexample :
    hasSub ("*/".toList) mceStr = true ∧
      (fullHighlight [⟨"/*".toList, [], false⟩, ⟨"*/".toList, [], false⟩]).map
          SRow.hl_open_comment = [true, false] := by
  constructor
  · decide
  · decide

/-- C2 (amended): (1) after a full highlight pass every row's
`hl_open_comment` equals the state obtained by chaining the per-row scan
from the top; (2) on that chain, a row whose scan exits inside a block
comment makes the flag true for it and every following row without the
end marker, while the first following row containing the end marker (and
no reopening start marker) gets flag `false` — excluding, not including,
the closing row; (3) re-running `editorUpdateSyntax` on an edited row
cascades until every row's flag again matches the chain, with all render
texts unchanged. -/
theorem block_comment_propagation :
    (∀ (rows : List SRow) (j : Nat), j < rows.length →
        ((fullHighlight rows).getD j default).hl_open_comment =
          chainFlagAt (rows.map SRow.render) j) ∧
    (∀ (renders : List (List Char)) (r e : Nat), r < e → e < renders.length →
        chainFlagAt renders r = true →
        (∀ j, r < j → j < e → hasSub (renders.getD j []) mceStr = false) →
        (∀ j, r ≤ j → j < e → chainFlagAt renders j = true) ∧
          (hasSub (renders.getD e []) mceStr = true →
            hasSub (renders.getD e []) mcsStr = false →
            chainFlagAt renders e = false)) ∧
    (∀ (rows : List SRow) (k : Nat), (∀ j, j ≠ k → consistentAt rows j) →
        (editorUpdateSyntax rows k).map SRow.render = rows.map SRow.render ∧
          ∀ j, j < rows.length →
            ((editorUpdateSyntax rows k).getD j default).hl_open_comment =
              chainFlagAt (rows.map SRow.render) j) := by
  refine ⟨?_, ?_, ?_⟩
  · intro rows j hj
    have h1 := consistent_chainFlag (fullHighlight rows) (fullHighlight_consistent rows)
      j (by rw [fullHighlight_length]; exact hj)
    rw [h1, fullHighlight_map_render]
  · intro renders r e hre helen hr hmid
    refine ⟨chain_run_true renders r e hr hmid, ?_⟩
    intro hmce hmcs
    obtain ⟨e', rfl⟩ : ∃ e', e = e' + 1 := ⟨e - 1, by omega⟩
    have hprev : chainFlagAt renders e' = true :=
      chain_run_true renders r (e' + 1) hr hmid e' (by omega) (by omega)
    show (editorUpdateSyntaxRow (renders.getD (e' + 1) []) (chainFlagAt renders e')).2 = false
    rw [hprev]
    exact scan_row_closes _ hmce hmcs
  · intro rows k hc
    have hcons := editorUpdateSyntax_except rows k hc
    refine ⟨editorUpdateSyntax_map_render rows k, ?_⟩
    intro j hj
    have h1 := consistent_chainFlag (editorUpdateSyntax rows k) hcons j
      (by rw [editorUpdateSyntax_length]; exact hj)
    rw [h1, editorUpdateSyntax_map_render]

/-- Witness for C2's amended theorem at concrete buffers: a two-row
buffer for the full pass, the three-row buffer
`["/*", "x", "*/ y"]` for the flag run, and a one-row buffer for the
cascade part. -/
theorem block_comment_propagation_witness :
    (((fullHighlight [⟨"/*".toList, [], false⟩, ⟨"x".toList, [], false⟩]).getD 1
          default).hl_open_comment =
        chainFlagAt ([⟨"/*".toList, [], false⟩, ⟨"x".toList, [], false⟩].map
          SRow.render) 1) ∧
      ((∀ j, 0 ≤ j → j < 2 →
          chainFlagAt ["/*".toList, "x".toList, "*/ y".toList] j = true) ∧
        (hasSub (["/*".toList, "x".toList, "*/ y".toList].getD 2 []) mceStr = true →
          hasSub (["/*".toList, "x".toList, "*/ y".toList].getD 2 []) mcsStr = false →
          chainFlagAt ["/*".toList, "x".toList, "*/ y".toList] 2 = false)) ∧
      ((editorUpdateSyntax [⟨"/*".toList, [], false⟩] 0).map SRow.render =
          [⟨"/*".toList, [], false⟩].map SRow.render ∧
        ∀ j, j < ([⟨"/*".toList, [], false⟩] : List SRow).length →
          ((editorUpdateSyntax [⟨"/*".toList, [], false⟩] 0).getD j
              default).hl_open_comment =
            chainFlagAt ([⟨"/*".toList, [], false⟩].map SRow.render) j) :=
  ⟨block_comment_propagation.1 [⟨"/*".toList, [], false⟩, ⟨"x".toList, [], false⟩] 1
      (by decide),
    block_comment_propagation.2.1 ["/*".toList, "x".toList, "*/ y".toList] 0 2
      (by decide) (by decide) (by decide)
      (by
        intro j h1 h2
        have hj : j = 1 := by omega
        subst hj
        decide),
    block_comment_propagation.2.2 [⟨"/*".toList, [], false⟩] 0
      (fun j hj hlt => (hj (Nat.lt_one_iff.mp (by simpa using hlt))).elim)⟩

end Shim
